import Mathlib

/-!
Verification of the batched dense-linear-algebra CPU kernels of
`aten/src/ATen/native/BatchLinearAlgebraKernel.cpp`.

The development embeds two aspects of the source file:

* the triangle symmetrization pass `apply_reflect_conj_tri_single`, modelled
  as a pure in-place pass over a flat buffer `Nat → α` with an explicit
  conjugation function and an explicit chunking decision for the
  `at::parallel_for` path;
* the batched drivers (`apply_cholesky_inverse`, `apply_linalg_eig`,
  `apply_lapack_eigh`, `apply_geqrf`, `apply_orgqr`,
  `apply_triangular_solve`), modelled by the ordered trace of events they
  produce at the LAPACK-primitive boundary (workspace size queries,
  per-matrix factorization calls, writes to the `infos` status vector,
  triangle-reflection passes), with the per-call LAPACK `info` results
  supplied by oracles.  `real_impl(wkopt)` truncated to `int` is modelled
  as an integer-valued size hint.
-/

namespace BatchLinAlg

/-- A flat element buffer, indexed like the raw pointer `scalar_t* self`. -/
abbrev Buf (α : Type) : Type := Nat → α

/-- Pointwise store `self[k] = v` into a flat buffer. -/
def store {α : Type} (g : Buf α) (k : Nat) (v : α) : Buf α :=
  fun m => if m = k then v else g m

/-- Inner column loop of `apply_reflect_conj_tri_single` at row `i`: for each
`j` drawn from `js` in order, perform `self[i*stride+j] = conj(self[j*stride+i])`.
The `upper` and `lower` variants differ only in the column list `js`. -/
def innerCols {α : Type} (conj : α → α) (stride i : Nat) : List Nat → Buf α → Buf α
  | [], g => g
  | j :: js, g =>
      innerCols conj stride i js (store g (i * stride + j) (conj (g (j * stride + i))))

/-- Row body of the `upper = true` loop of `apply_reflect_conj_tri_single`:
columns `j = i+1, ..., n-1`. -/
def rowUpper {α : Type} (conj : α → α) (n stride i : Nat) (g : Buf α) : Buf α :=
  innerCols conj stride i (List.range' (i + 1) (n - (i + 1))) g

/-- Row body of the `upper = false` loop of `apply_reflect_conj_tri_single`:
columns `j = 0, ..., i-1`. -/
def rowLower {α : Type} (conj : α → α) (stride i : Nat) (g : Buf α) : Buf α :=
  innerCols conj stride i (List.range i) g

/-- The row loop of `apply_reflect_conj_tri_single` executed over an explicit
list of row indices. -/
def loopRows {α : Type} (conj : α → α) (upper : Bool) (n stride : Nat) :
    List Nat → Buf α → Buf α
  | [], g => g
  | i :: is, g =>
      loopRows conj upper n stride is
        (if upper then rowUpper conj n stride i g else rowLower conj stride i g)

/-- The lambda `loop(start, end)` of the source: rows `start, ..., end-1`. -/
def loopSeg {α : Type} (conj : α → α) (upper : Bool) (n stride start stop : Nat)
    (g : Buf α) : Buf α :=
  loopRows conj upper n stride (List.range' start (stop - start)) g

/-- Chunked execution of the row loop: `at::parallel_for(0, n, 0, loop)`
partitions `[0, n)` into contiguous chunks (given here by their lengths) and
runs the same loop body on each chunk. -/
def runChunks {α : Type} (conj : α → α) (upper : Bool) (n stride : Nat) :
    List Nat → Nat → Buf α → Buf α
  | [], _, g => g
  | c :: cs, start, g =>
      runChunks conj upper n stride cs (start + c)
        (loopSeg conj upper n stride start (start + c) g)

/-- `apply_reflect_conj_tri_single(self, n, stride, upper)`, with the
scheduler's chunking decision for the `n ≥ 256` parallel path made explicit:
for `n < 256` the loop runs in one piece over `[0, n)`, otherwise the rows are
processed chunk by chunk. -/
def apply_reflect_conj_tri_single {α : Type} (conj : α → α) (n stride : Nat)
    (upper : Bool) (chunks : List Nat) (g : Buf α) : Buf α :=
  if n < 256 then loopSeg conj upper n stride 0 n g
  else runChunks conj upper n stride chunks 0 g

/-- Events observable at the numeric-primitive boundary during one batched
call: a workspace size query (`lwork = -1` call), a per-matrix factorization
call for batch index `i`, a write of value `v` into slot `s` of the `infos`
status vector, and a triangle-reflection pass over matrix `i`. -/
inductive Ev where
  | query : Ev
  | factor : Nat → Ev
  | infoWrite : Nat → Int → Ev
  | reflectTri : Nat → Ev
deriving DecidableEq

/-- Batch indices of the per-matrix factorization calls in a trace, in order. -/
def factorCalls : List Ev → List Nat
  | [] => []
  | Ev.query :: es => factorCalls es
  | Ev.factor i :: es => i :: factorCalls es
  | Ev.infoWrite _ _ :: es => factorCalls es
  | Ev.reflectTri _ :: es => factorCalls es

/-- Number of workspace size-query calls in a trace. -/
def queryCount : List Ev → Nat
  | [] => 0
  | Ev.query :: es => queryCount es + 1
  | Ev.factor _ :: es => queryCount es
  | Ev.infoWrite _ _ :: es => queryCount es
  | Ev.reflectTri _ :: es => queryCount es

/-- Batch indices of the triangle-reflection passes in a trace, in order. -/
def reflectCalls : List Ev → List Nat
  | [] => []
  | Ev.query :: es => reflectCalls es
  | Ev.factor _ :: es => reflectCalls es
  | Ev.infoWrite _ _ :: es => reflectCalls es
  | Ev.reflectTri i :: es => i :: reflectCalls es

/-- Number of writes into slot `s` of the status vector in a trace. -/
def writeCount (s : Nat) : List Ev → Nat
  | [] => 0
  | Ev.query :: es => writeCount s es
  | Ev.factor _ :: es => writeCount s es
  | Ev.infoWrite t _ :: es => (if t = s then 1 else 0) + writeCount s es
  | Ev.reflectTri _ :: es => writeCount s es

/-- Final contents of the status vector after replaying the `infoWrite`
events of a trace, in order, over an initial vector. -/
def applyWrites : List Ev → (Nat → Int) → Nat → Int
  | [], inf => inf
  | Ev.query :: es, inf => applyWrites es inf
  | Ev.factor _ :: es, inf => applyWrites es inf
  | Ev.infoWrite t v :: es, inf =>
      applyWrites es (fun m => if m = t then v else inf m)
  | Ev.reflectTri _ :: es, inf => applyWrites es inf

/-- Replays a trace over a buffer with an abstract per-event effect; used to
express that an empty trace leaves every buffer unchanged. -/
def applyEvents {α : Type} (eff : Ev → Buf α → Buf α) : List Ev → Buf α → Buf α
  | [], g => g
  | e :: es, g => applyEvents eff es (eff e g)

/-- Batch loop with no early exit (the loop of `apply_linalg_eig`): for each
index `i`, one factorization call followed by the LAPACK write of `*info` into
`infos[i]`.  `fuel` is the number of remaining indices, `i` the current one. -/
def seqLoop (oracle : Nat → Int) : Nat → Nat → List Ev
  | 0, _ => []
  | Nat.succ fuel, i =>
      Ev.factor i :: Ev.infoWrite i (oracle i) :: seqLoop oracle fuel (i + 1)

/-- Batch loop with early exit (the loops of `apply_lapack_eigh` and
`apply_triangular_solve`): after the factorization call for index `i` writes
`infos[i]`, the loop returns as soon as `*info_working_ptr != 0`. -/
def earlyExitLoop (oracle : Nat → Int) : Nat → Nat → List Ev
  | 0, _ => []
  | Nat.succ fuel, i =>
      Ev.factor i :: Ev.infoWrite i (oracle i) ::
        (if oracle i = 0 then earlyExitLoop oracle fuel (i + 1) else [])

/-- Batch loop of `apply_cholesky_inverse`: for every index `i`, a
`lapackCholeskyInverse` call writing `infos[i]`, then unconditionally the
triangle-reflection pass over matrix `i`; no early exit. -/
def choleskyLoop (oracle : Nat → Int) : Nat → Nat → List Ev
  | 0, _ => []
  | Nat.succ fuel, i =>
      Ev.factor i :: Ev.infoWrite i (oracle i) :: Ev.reflectTri i ::
        choleskyLoop oracle fuel (i + 1)

/-- Batch loop of `apply_geqrf` and `apply_orgqr`: the per-matrix `info` is a
local variable (never written to a status vector) and is only checked by
`TORCH_INTERNAL_ASSERT_DEBUG_ONLY`, modelled as an abort that fires in debug
builds when the oracle reports a nonzero `info`. -/
def assertLoop (debug : Bool) (oracle : Nat → Int) : Nat → Nat → List Ev × Bool
  | 0, _ => ([], false)
  | Nat.succ fuel, i =>
      let rest :=
        if debug = true ∧ oracle i ≠ 0 then ([], true)
        else assertLoop debug oracle fuel (i + 1)
      (Ev.factor i :: rest.1, rest.2)

/-- Result of one batched call: the ordered event trace, the primary
workspace size the call allocates (`none` when it allocates none), and
whether a fatal internal assertion fired. -/
structure RunResult where
  events : List Ev
  lwork : Option Int
  aborted : Bool
deriving DecidableEq

/-- `apply_cholesky_inverse`: no workspace sizing; every batch index gets a
`lapackCholeskyInverse` call, an `infos[i]` write and a reflection pass. -/
def apply_cholesky_inverse (b : Nat) (oracle : Nat → Int) : RunResult :=
  { events := choleskyLoop oracle b 0, lwork := none, aborted := false }

/-- `apply_linalg_eig`: one unconditional size query whose `info` LAPACK
writes into `&infos_data[0]`, then `lwork = max(1, (int)real(work_query))`,
then the batch loop with no early exit.  `qInfo` is the query's `info`,
`hint` the truncated real part of `work_query`. -/
def apply_linalg_eig (b : Nat) (qInfo hint : Int) (oracle : Nat → Int) : RunResult :=
  { events := Ev.query :: Ev.infoWrite 0 qInfo :: seqLoop oracle b 0,
    lwork := some (max 1 hint),
    aborted := false }

/-- `apply_lapack_eigh`: one unconditional size query whose `info` LAPACK
writes into `infos_data` (slot 0), then `lwork = max(1, real(lwork_query))`,
then the batch loop with early exit on nonzero `info`. -/
def apply_lapack_eigh (b : Nat) (qInfo hint : Int) (oracle : Nat → Int) : RunResult :=
  { events := Ev.query :: Ev.infoWrite 0 qInfo :: earlyExitLoop oracle b 0,
    lwork := some (max 1 hint),
    aborted := false }

/-- `apply_triangular_solve`: no workspace sizing; the batch loop writes
`infos[i]` per matrix and exits early on the first nonzero `info`. -/
def apply_triangular_solve (b : Nat) (oracle : Nat → Int) : RunResult :=
  { events := earlyExitLoop oracle b 0, lwork := none, aborted := false }

/-- `apply_geqrf`: one unconditional size query checked only by
`TORCH_INTERNAL_ASSERT_DEBUG_ONLY(info == 0)`, then
`lwork = max(max(1, n), real(wkopt))`, then the batch loop with local
`info` and debug-only asserts. -/
def apply_geqrf (debug : Bool) (b n : Nat) (qInfo hint : Int)
    (oracle : Nat → Int) : RunResult :=
  if debug = true ∧ qInfo ≠ 0 then
    { events := [Ev.query], lwork := none, aborted := true }
  else
    { events := Ev.query :: (assertLoop debug oracle b 0).1,
      lwork := some (max (max 1 (n : Int)) hint),
      aborted := (assertLoop debug oracle b 0).2 }

/-- `apply_orgqr` over a batch of `b` matrices of `m` rows and `ncols`
columns: `self.numel() == 0` (that is `b * m * ncols = 0`) returns
immediately; otherwise one size query with a debug-only assert, then
`lwork = max(1, real(wkopt))`, then the batch loop with local `info`. -/
def apply_orgqr (debug : Bool) (b m ncols : Nat) (qInfo hint : Int)
    (oracle : Nat → Int) : RunResult :=
  if b * m * ncols = 0 then
    { events := [], lwork := none, aborted := false }
  else if debug = true ∧ qInfo ≠ 0 then
    { events := [Ev.query], lwork := none, aborted := true }
  else
    { events := Ev.query :: (assertLoop debug oracle b 0).1,
      lwork := some (max 1 hint),
      aborted := (assertLoop debug oracle b 0).2 }

/-! ## Index arithmetic for the flat buffer -/

lemma encode_div {s i a : Nat} (ha : a < s) : (i * s + a) / s = i := by
  have hs : 0 < s := Nat.lt_of_le_of_lt (Nat.zero_le a) ha
  rw [Nat.mul_comm i s, Nat.mul_add_div hs, Nat.div_eq_of_lt ha, Nat.add_zero]

lemma encode_mod {s i a : Nat} (ha : a < s) : (i * s + a) % s = a := by
  rw [Nat.mul_comm i s, Nat.mul_add_mod, Nat.mod_eq_of_lt ha]

lemma encode_eq {s i a k : Nat} (ha : a < s) :
    k = i * s + a ↔ k / s = i ∧ k % s = a := by
  constructor
  · rintro rfl
    exact ⟨encode_div ha, encode_mod ha⟩
  · rintro ⟨h1, h2⟩
    calc k = s * (k / s) + k % s := (Nat.div_add_mod k s).symm
    _ = s * i + a := by rw [h1, h2]
    _ = i * s + a := by rw [Nat.mul_comm]

/-! ## Pointwise characterization of the symmetrization pass -/

lemma store_apply {α : Type} (g : Buf α) (k m : Nat) (v : α) :
    store g k v m = if m = k then v else g m := rfl

lemma innerCols_apply {α : Type} (conj : α → α) (stride i : Nat) (js : List Nat)
    (g : Buf α) (k : Nat) (hi : i < stride)
    (hjs : ∀ a ∈ js, a < stride ∧ a ≠ i) :
    innerCols conj stride i js g k =
      if k / stride = i ∧ k % stride ∈ js
      then conj (g ((k % stride) * stride + i))
      else g k := by
  induction js generalizing g with
  | nil => simp [innerCols]
  | cons a rest ih =>
    obtain ⟨ha, hai⟩ := hjs a (List.mem_cons_self a rest)
    have hrest : ∀ x ∈ rest, x < stride ∧ x ≠ i :=
      fun x hx => hjs x (List.mem_cons_of_mem a hx)
    rw [innerCols, ih _ hrest]
    by_cases hc : k / stride = i ∧ k % stride ∈ rest
    · rw [if_pos hc, if_pos ⟨hc.1, List.mem_cons_of_mem a hc.2⟩]
      have hne : (k % stride) * stride + i ≠ i * stride + a := by
        intro h
        obtain ⟨h1, h2⟩ := (encode_eq ha).mp h
        rw [encode_mod hi] at h2
        exact hai h2.symm
      rw [store_apply, if_neg hne]
    · rw [if_neg hc]
      by_cases hk : k = i * stride + a
      · obtain ⟨h1, h2⟩ := (encode_eq ha).mp hk
        rw [if_pos ⟨h1, by rw [h2]; exact List.mem_cons_self a rest⟩,
          store_apply, if_pos hk, h2]
      · rw [store_apply, if_neg hk]
        by_cases hall : k / stride = i ∧ k % stride ∈ a :: rest
        · exfalso
          rcases List.mem_cons.mp hall.2 with h2 | h2
          · exact hk ((encode_eq ha).mpr ⟨hall.1, h2⟩)
          · exact hc ⟨hall.1, h2⟩
        · rw [if_neg hall]

lemma rowUpper_apply {α : Type} (conj : α → α) (n stride i : Nat) (g : Buf α)
    (k : Nat) (hn : n ≤ stride) (hi : i < n) :
    rowUpper conj n stride i g k =
      if k / stride = i ∧ i < k % stride ∧ k % stride < n
      then conj (g ((k % stride) * stride + i))
      else g k := by
  rw [rowUpper, innerCols_apply conj stride i _ g k (Nat.lt_of_lt_of_le hi hn)]
  · have hmem : (k % stride ∈ List.range' (i + 1) (n - (i + 1))) ↔
        (i < k % stride ∧ k % stride < n) := by
      rw [List.mem_range'_1]
      omega
    by_cases hc : k / stride = i ∧ k % stride ∈ List.range' (i + 1) (n - (i + 1))
    · rw [if_pos hc, if_pos ⟨hc.1, hmem.mp hc.2⟩]
    · rw [if_neg hc, if_neg (fun hx => hc ⟨hx.1, hmem.mpr hx.2⟩)]
  · intro a hamem
    rw [List.mem_range'_1] at hamem
    constructor
    · omega
    · omega

lemma rowLower_apply {α : Type} (conj : α → α) (n stride i : Nat) (g : Buf α)
    (k : Nat) (hn : n ≤ stride) (hi : i < n) :
    rowLower conj stride i g k =
      if k / stride = i ∧ k % stride < i
      then conj (g ((k % stride) * stride + i))
      else g k := by
  rw [rowLower, innerCols_apply conj stride i _ g k (Nat.lt_of_lt_of_le hi hn)]
  · have hmem : (k % stride ∈ List.range i) ↔ (k % stride < i) := List.mem_range
    by_cases hc : k / stride = i ∧ k % stride ∈ List.range i
    · rw [if_pos hc, if_pos ⟨hc.1, hmem.mp hc.2⟩]
    · rw [if_neg hc, if_neg (fun hx => hc ⟨hx.1, hmem.mpr hx.2⟩)]
  · intro a hamem
    rw [List.mem_range] at hamem
    constructor
    · omega
    · omega

lemma loopRows_upper_apply {α : Type} (conj : α → α) (n stride : Nat)
    (xs : List Nat) (g : Buf α) (k : Nat) (hn : n ≤ stride)
    (hxs : ∀ i ∈ xs, i < n) :
    loopRows conj true n stride xs g k =
      if k / stride ∈ xs ∧ k / stride < k % stride ∧ k % stride < n
      then conj (g ((k % stride) * stride + (k / stride)))
      else g k := by
  induction xs generalizing g with
  | nil => simp [loopRows]
  | cons x xs ih =>
    have hx : x < n := hxs x (List.mem_cons_self x xs)
    have hxs2 : ∀ i ∈ xs, i < n := fun i hi => hxs i (List.mem_cons_of_mem x hi)
    rw [loopRows, if_pos rfl, ih (rowUpper conj n stride x g) hxs2]
    by_cases hc : k / stride ∈ xs ∧ k / stride < k % stride ∧ k % stride < n
    · rw [if_pos hc, if_pos ⟨List.mem_cons_of_mem x hc.1, hc.2⟩]
      have hr : k / stride < stride := by omega
      have hdiv : ((k % stride) * stride + k / stride) / stride = k % stride :=
        encode_div hr
      have hmod : ((k % stride) * stride + k / stride) % stride = k / stride :=
        encode_mod hr
      rw [rowUpper_apply conj n stride x _ _ hn hx, hdiv, hmod,
        if_neg (by intro hq; omega)]
    · rw [if_neg hc, rowUpper_apply conj n stride x g k hn hx]
      by_cases hw : k / stride = x ∧ x < k % stride ∧ k % stride < n
      · rw [if_pos hw, if_pos ⟨by rw [hw.1]; exact List.mem_cons_self x xs,
          by omega, hw.2.2⟩, hw.1]
      · rw [if_neg hw, if_neg ?_]
        intro hq
        rcases List.mem_cons.mp hq.1 with h1 | h1
        · exact hw ⟨h1, by omega, hq.2.2⟩
        · exact hc ⟨h1, hq.2⟩

lemma loopRows_lower_apply {α : Type} (conj : α → α) (n stride : Nat)
    (xs : List Nat) (g : Buf α) (k : Nat) (hn : n ≤ stride)
    (hxs : ∀ i ∈ xs, i < n) :
    loopRows conj false n stride xs g k =
      if k / stride ∈ xs ∧ k % stride < k / stride
      then conj (g ((k % stride) * stride + (k / stride)))
      else g k := by
  induction xs generalizing g with
  | nil => simp [loopRows]
  | cons x xs ih =>
    have hx : x < n := hxs x (List.mem_cons_self x xs)
    have hxs2 : ∀ i ∈ xs, i < n := fun i hi => hxs i (List.mem_cons_of_mem x hi)
    rw [loopRows, if_neg (by simp), ih (rowLower conj stride x g) hxs2]
    by_cases hc : k / stride ∈ xs ∧ k % stride < k / stride
    · rw [if_pos hc, if_pos ⟨List.mem_cons_of_mem x hc.1, hc.2⟩]
      have hr : k / stride < stride :=
        Nat.lt_of_lt_of_le (hxs2 (k / stride) hc.1) hn
      have hdiv : ((k % stride) * stride + k / stride) / stride = k % stride :=
        encode_div hr
      have hmod : ((k % stride) * stride + k / stride) % stride = k / stride :=
        encode_mod hr
      rw [rowLower_apply conj n stride x _ _ hn hx, hdiv, hmod,
        if_neg (by intro hq; omega)]
    · rw [if_neg hc, rowLower_apply conj n stride x g k hn hx]
      by_cases hw : k / stride = x ∧ k % stride < x
      · rw [if_pos hw, if_pos ⟨by rw [hw.1]; exact List.mem_cons_self x xs,
          by omega⟩, hw.1]
      · rw [if_neg hw, if_neg ?_]
        intro hq
        rcases List.mem_cons.mp hq.1 with h1 | h1
        · exact hw ⟨h1, by omega⟩
        · exact hc ⟨h1, hq.2⟩

lemma loopRows_append {α : Type} (conj : α → α) (upper : Bool) (n stride : Nat)
    (xs ys : List Nat) (g : Buf α) :
    loopRows conj upper n stride (xs ++ ys) g =
      loopRows conj upper n stride ys (loopRows conj upper n stride xs g) := by
  induction xs generalizing g with
  | nil => simp [loopRows]
  | cons x xs ih => simp [loopRows, ih]

lemma runChunks_eq {α : Type} (conj : α → α) (upper : Bool) (n stride : Nat)
    (cs : List Nat) (start : Nat) (g : Buf α) :
    runChunks conj upper n stride cs start g =
      loopRows conj upper n stride (List.range' start cs.sum) g := by
  induction cs generalizing start g with
  | nil => simp [runChunks, loopRows]
  | cons c cs ih =>
    rw [runChunks, ih]
    have hr : List.range' start c ++ List.range' (start + c) cs.sum =
        List.range' start (c + cs.sum) := by
      have h := List.range'_append start c cs.sum 1
      simpa [Nat.add_comm] using h
    rw [loopSeg, Nat.add_sub_cancel_left, ← loopRows_append, hr, List.sum_cons]

lemma reflect_eq_seq {α : Type} (conj : α → α) (n stride : Nat) (upper : Bool)
    (chunks : List Nat) (g : Buf α) (hc : chunks.sum = n) :
    apply_reflect_conj_tri_single conj n stride upper chunks g =
      loopRows conj upper n stride (List.range' 0 n) g := by
  rw [apply_reflect_conj_tri_single]
  split
  · rw [loopSeg, Nat.sub_zero]
  · rw [runChunks_eq, hc]

lemma reflect_upper_apply {α : Type} (conj : α → α) (n stride : Nat)
    (chunks : List Nat) (g : Buf α) (k : Nat) (hn : n ≤ stride)
    (hc : chunks.sum = n) :
    apply_reflect_conj_tri_single conj n stride true chunks g k =
      if k / stride < k % stride ∧ k % stride < n
      then conj (g ((k % stride) * stride + (k / stride)))
      else g k := by
  rw [reflect_eq_seq conj n stride true chunks g hc,
    loopRows_upper_apply conj n stride _ g k hn
      (fun i hi => by rw [List.mem_range'_1] at hi; omega)]
  by_cases hq : k / stride < k % stride ∧ k % stride < n
  · rw [if_pos ⟨by rw [List.mem_range'_1]; exact ⟨Nat.zero_le _, by omega⟩, hq⟩,
      if_pos hq]
  · rw [if_neg (fun hx => hq hx.2), if_neg hq]

lemma reflect_lower_apply {α : Type} (conj : α → α) (n stride : Nat)
    (chunks : List Nat) (g : Buf α) (k : Nat) (hn : n ≤ stride)
    (hc : chunks.sum = n) :
    apply_reflect_conj_tri_single conj n stride false chunks g k =
      if k % stride < k / stride ∧ k / stride < n
      then conj (g ((k % stride) * stride + (k / stride)))
      else g k := by
  rw [reflect_eq_seq conj n stride false chunks g hc,
    loopRows_lower_apply conj n stride _ g k hn
      (fun i hi => by rw [List.mem_range'_1] at hi; omega)]
  by_cases hq : k % stride < k / stride ∧ k / stride < n
  · rw [if_pos ⟨by rw [List.mem_range'_1]; exact ⟨Nat.zero_le _, by omega⟩,
      hq.1⟩, if_pos hq]
  · rw [if_neg ?_, if_neg hq]
    intro hx
    rw [List.mem_range'_1] at hx
    exact hq ⟨hx.2, by omega⟩

/-! ## Trace lemmas for the batched drivers -/

lemma factorCalls_append (xs ys : List Ev) :
    factorCalls (xs ++ ys) = factorCalls xs ++ factorCalls ys := by
  induction xs with
  | nil => rfl
  | cons e es ih => cases e <;> simp [factorCalls, ih]

lemma queryCount_append (xs ys : List Ev) :
    queryCount (xs ++ ys) = queryCount xs + queryCount ys := by
  induction xs with
  | nil => simp [queryCount]
  | cons e es ih => cases e <;> simp [queryCount, ih, Nat.add_right_comm]

lemma writeCount_append (s : Nat) (xs ys : List Ev) :
    writeCount s (xs ++ ys) = writeCount s xs + writeCount s ys := by
  induction xs with
  | nil => simp [writeCount]
  | cons e es ih => cases e <;> simp [writeCount, ih, Nat.add_assoc]

lemma applyWrites_append (xs ys : List Ev) (inf : Nat → Int) :
    applyWrites (xs ++ ys) inf = applyWrites ys (applyWrites xs inf) := by
  induction xs generalizing inf with
  | nil => rfl
  | cons e es ih => cases e <;> simp [applyWrites, ih]

lemma factorCalls_seqLoop (oracle : Nat → Int) (fuel i : Nat) :
    factorCalls (seqLoop oracle fuel i) = List.range' i fuel := by
  induction fuel generalizing i with
  | zero => rfl
  | succ fuel ih => rw [seqLoop, factorCalls, factorCalls, ih]; rfl

lemma queryCount_seqLoop (oracle : Nat → Int) (fuel i : Nat) :
    queryCount (seqLoop oracle fuel i) = 0 := by
  induction fuel generalizing i with
  | zero => rfl
  | succ fuel ih => rw [seqLoop, queryCount, queryCount, ih]

lemma writeCount_seqLoop (oracle : Nat → Int) (fuel i s : Nat) :
    writeCount s (seqLoop oracle fuel i) =
      if i ≤ s ∧ s < i + fuel then 1 else 0 := by
  induction fuel generalizing i with
  | zero =>
    have h : ¬ (i ≤ s ∧ s < i + 0) := by omega
    rw [seqLoop, writeCount, if_neg h]
  | succ fuel ih =>
    rw [seqLoop, writeCount, writeCount, ih (i + 1)]
    by_cases h1 : i = s
    · rw [if_pos h1, if_neg (by omega), if_pos (by omega)]
    · rw [if_neg h1]
      by_cases h2 : i + 1 ≤ s ∧ s < i + 1 + fuel
      · rw [if_pos h2, if_pos (by omega)]
      · rw [if_neg h2, if_neg (by omega)]

lemma applyWrites_seqLoop (oracle : Nat → Int) (fuel i : Nat) (inf : Nat → Int)
    (k : Nat) :
    applyWrites (seqLoop oracle fuel i) inf k =
      if i ≤ k ∧ k < i + fuel then oracle k else inf k := by
  induction fuel generalizing i inf with
  | zero =>
    have h : ¬ (i ≤ k ∧ k < i + 0) := by omega
    rw [seqLoop, applyWrites, if_neg h]
  | succ fuel ih =>
    rw [seqLoop, applyWrites, applyWrites, ih]
    by_cases h2 : i + 1 ≤ k ∧ k < i + 1 + fuel
    · rw [if_pos h2, if_pos (by omega)]
    · rw [if_neg h2]
      by_cases h1 : k = i
      · rw [if_pos h1, if_pos (by omega), h1]
      · rw [if_neg h1, if_neg (by omega)]

lemma earlyExitLoop_ok (oracle : Nat → Int) (fuel i : Nat)
    (h : ∀ j, i ≤ j → j < i + fuel → oracle j = 0) :
    earlyExitLoop oracle fuel i = seqLoop oracle fuel i := by
  induction fuel generalizing i with
  | zero => rfl
  | succ fuel ih =>
    rw [earlyExitLoop, seqLoop, if_pos (h i (Nat.le_refl i) (by omega)),
      ih (i + 1) (fun j hj1 hj2 => h j (by omega) (by omega))]

lemma earlyExitLoop_fail (oracle : Nat → Int) (fuel i t : Nat) (hit : i ≤ t)
    (htf : t < i + fuel) (hfail : oracle t ≠ 0)
    (hok : ∀ j, i ≤ j → j < t → oracle j = 0) :
    earlyExitLoop oracle fuel i =
      seqLoop oracle (t - i) i ++ [Ev.factor t, Ev.infoWrite t (oracle t)] := by
  induction fuel generalizing i with
  | zero => omega
  | succ fuel ih =>
    by_cases hi : i = t
    · subst hi
      rw [earlyExitLoop, if_neg hfail]
      simp [seqLoop]
    · have hlt : i < t := by omega
      rw [earlyExitLoop, if_pos (hok i (Nat.le_refl i) hlt),
        ih (i + 1) (by omega) (by omega)
          (fun j hj1 hj2 => hok j (by omega) hj2)]
      have ht : t - i = (t - (i + 1)) + 1 := by omega
      rw [ht, seqLoop]
      rfl

lemma factorCalls_choleskyLoop (oracle : Nat → Int) (fuel i : Nat) :
    factorCalls (choleskyLoop oracle fuel i) = List.range' i fuel := by
  induction fuel generalizing i with
  | zero => rfl
  | succ fuel ih =>
    rw [choleskyLoop, factorCalls, factorCalls, factorCalls, ih]
    rfl

lemma reflectCalls_choleskyLoop (oracle : Nat → Int) (fuel i : Nat) :
    reflectCalls (choleskyLoop oracle fuel i) = List.range' i fuel := by
  induction fuel generalizing i with
  | zero => rfl
  | succ fuel ih =>
    rw [choleskyLoop, reflectCalls, reflectCalls, reflectCalls, ih]
    rfl

lemma queryCount_choleskyLoop (oracle : Nat → Int) (fuel i : Nat) :
    queryCount (choleskyLoop oracle fuel i) = 0 := by
  induction fuel generalizing i with
  | zero => rfl
  | succ fuel ih =>
    rw [choleskyLoop, queryCount, queryCount, queryCount, ih]

lemma assertLoop_false_snd (oracle : Nat → Int) (fuel i : Nat) :
    (assertLoop false oracle fuel i).2 = false := by
  induction fuel generalizing i with
  | zero => rfl
  | succ fuel ih => rw [assertLoop, if_neg (by simp)]; exact ih (i + 1)

lemma factorCalls_assertLoop_false (oracle : Nat → Int) (fuel i : Nat) :
    factorCalls (assertLoop false oracle fuel i).1 = List.range' i fuel := by
  induction fuel generalizing i with
  | zero => rfl
  | succ fuel ih =>
    rw [assertLoop, if_neg (by simp)]
    show factorCalls (Ev.factor i :: (assertLoop false oracle fuel (i + 1)).1) = _
    rw [factorCalls, ih]
    rfl

lemma assertLoop_ok (debug : Bool) (oracle : Nat → Int) (fuel i : Nat)
    (h : ∀ j, i ≤ j → j < i + fuel → oracle j = 0) :
    (assertLoop debug oracle fuel i).2 = false := by
  induction fuel generalizing i with
  | zero => rfl
  | succ fuel ih =>
    rw [assertLoop,
      if_neg (fun hx => hx.2 (h i (Nat.le_refl i) (by omega)))]
    exact ih (i + 1) (fun j hj1 hj2 => h j (by omega) (by omega))

/-! ## Claims about the triangle symmetrization pass -/

/-- Claim C1: for an `n`-by-`n` matrix in a buffer with leading-dimension
`stride`, the symmetrization pass with `upper = true` sets
`M[i,j] = conj(M[j,i])` for every `j > i` and leaves every other element of
the matrix unchanged; with `upper = false` it does so for every `j < i`. -/
theorem C1_reflect_conj_tri {α : Type} (conj : α → α) (n stride : Nat)
    (upper : Bool) (chunks : List Nat) (g : Buf α) (hn : n ≤ stride)
    (hc : chunks.sum = n) (i j : Nat) (hi : i < n) (hj : j < n) :
    (upper = true → i < j →
      apply_reflect_conj_tri_single conj n stride upper chunks g
          (i * stride + j) = conj (g (j * stride + i)))
    ∧ (upper = true → ¬ i < j →
      apply_reflect_conj_tri_single conj n stride upper chunks g
          (i * stride + j) = g (i * stride + j))
    ∧ (upper = false → j < i →
      apply_reflect_conj_tri_single conj n stride upper chunks g
          (i * stride + j) = conj (g (j * stride + i)))
    ∧ (upper = false → ¬ j < i →
      apply_reflect_conj_tri_single conj n stride upper chunks g
          (i * stride + j) = g (i * stride + j)) := by
  have hjs : j < stride := Nat.lt_of_lt_of_le hj hn
  have hdiv : (i * stride + j) / stride = i := encode_div hjs
  have hmod : (i * stride + j) % stride = j := encode_mod hjs
  refine ⟨?_, ?_, ?_, ?_⟩
  · rintro rfl h
    rw [reflect_upper_apply conj n stride chunks g _ hn hc, hdiv, hmod,
      if_pos ⟨h, hj⟩]
  · rintro rfl h
    rw [reflect_upper_apply conj n stride chunks g _ hn hc, hdiv, hmod,
      if_neg (fun hx => h hx.1)]
  · rintro rfl h
    rw [reflect_lower_apply conj n stride chunks g _ hn hc, hdiv, hmod,
      if_pos ⟨h, hi⟩]
  · rintro rfl h
    rw [reflect_lower_apply conj n stride chunks g _ hn hc, hdiv, hmod,
      if_neg (fun hx => h hx.1)]

/-- Witness for C1 at a concrete input: a 2-by-2 integer matrix with
`stride = 2`, `upper = true`, chunking `[1, 1]`, and negation as the
conjugation; entry `(0, 1)` becomes `conj` of entry `(1, 0)`. -/
theorem C1_reflect_conj_tri_witness :
    2 ≤ 2 ∧ List.sum [1, 1] = 2 ∧ 0 < 2 ∧ 1 < 2 ∧
    apply_reflect_conj_tri_single (fun x : Int => -x) 2 2 true [1, 1]
      (fun k => (k : Int)) (0 * 2 + 1) = -2 := by
  refine ⟨by decide, by decide, by decide, by decide, ?_⟩
  have h := (C1_reflect_conj_tri (fun x : Int => -x) 2 2 true [1, 1]
    (fun k => (k : Int)) (by decide) (by decide) 0 1 (by decide)
    (by decide)).1 rfl (by decide)
  simpa using h

/-- Claim C6: the symmetrization pass is idempotent as a transformation of
the whole buffer, for any conjugation function (so in particular for the
identity on real types and for complex conjugation). -/
theorem C6_reflect_idempotent {α : Type} (conj : α → α) (n stride : Nat)
    (upper : Bool) (chunks : List Nat) (g : Buf α) (hn : n ≤ stride)
    (hc : chunks.sum = n) :
    apply_reflect_conj_tri_single conj n stride upper chunks
        (apply_reflect_conj_tri_single conj n stride upper chunks g) =
      apply_reflect_conj_tri_single conj n stride upper chunks g := by
  funext k
  cases upper with
  | true =>
    by_cases hq : k / stride < k % stride ∧ k % stride < n
    · have hr : k / stride < stride := by omega
      have hdiv : ((k % stride) * stride + k / stride) / stride = k % stride :=
        encode_div hr
      have hmod : ((k % stride) * stride + k / stride) % stride = k / stride :=
        encode_mod hr
      rw [reflect_upper_apply conj n stride chunks
          (apply_reflect_conj_tri_single conj n stride true chunks g) k hn hc,
        if_pos hq,
        reflect_upper_apply conj n stride chunks g
          ((k % stride) * stride + k / stride) hn hc, hdiv, hmod,
        if_neg (by intro hx; omega),
        reflect_upper_apply conj n stride chunks g k hn hc, if_pos hq]
    · rw [reflect_upper_apply conj n stride chunks
          (apply_reflect_conj_tri_single conj n stride true chunks g) k hn hc,
        if_neg hq]
  | false =>
    by_cases hq : k % stride < k / stride ∧ k / stride < n
    · have hr : k / stride < stride := Nat.lt_of_lt_of_le hq.2 hn
      have hdiv : ((k % stride) * stride + k / stride) / stride = k % stride :=
        encode_div hr
      have hmod : ((k % stride) * stride + k / stride) % stride = k / stride :=
        encode_mod hr
      rw [reflect_lower_apply conj n stride chunks
          (apply_reflect_conj_tri_single conj n stride false chunks g) k hn hc,
        if_pos hq,
        reflect_lower_apply conj n stride chunks g
          ((k % stride) * stride + k / stride) hn hc, hdiv, hmod,
        if_neg (by intro hx; omega),
        reflect_lower_apply conj n stride chunks g k hn hc, if_pos hq]
    · rw [reflect_lower_apply conj n stride chunks
          (apply_reflect_conj_tri_single conj n stride false chunks g) k hn hc,
        if_neg hq]

/-- Witness for C6 at a concrete input: a 2-by-2 integer matrix with
`stride = 2`, `upper = false`, chunking `[2]`, and negation as the
conjugation. -/
theorem C6_reflect_idempotent_witness :
    2 ≤ 2 ∧ List.sum [2] = 2 ∧
    apply_reflect_conj_tri_single (fun x : Int => -x) 2 2 false [2]
        (apply_reflect_conj_tri_single (fun x : Int => -x) 2 2 false [2]
          (fun k => (k : Int))) =
      apply_reflect_conj_tri_single (fun x : Int => -x) 2 2 false [2]
        (fun k => (k : Int)) :=
  ⟨by decide, by decide,
    C6_reflect_idempotent (fun x : Int => -x) 2 2 false [2]
      (fun k => (k : Int)) (by decide) (by decide)⟩

/-- Claim C9: the symmetrization pass produces the same buffer whether its
row loop runs sequentially over `[0, n)` in one piece (the `n < 256` path)
or over any partition of `[0, n)` into contiguous row chunks executed with
the same loop body (the `n ≥ 256` parallel path); the output does not depend
on the threading decision. -/
theorem C9_reflect_threading_equiv {α : Type} (conj : α → α) (n stride : Nat)
    (upper : Bool) (chunks : List Nat) (g : Buf α) (hc : chunks.sum = n) :
    apply_reflect_conj_tri_single conj n stride upper chunks g =
      loopSeg conj upper n stride 0 n g := by
  rw [reflect_eq_seq conj n stride upper chunks g hc, loopSeg, Nat.sub_zero]

/-- Witness for C9 at a concrete input: rows `[0, 3)` split into chunks of
lengths `1` and `2` give the same buffer as the single sequential pass. -/
theorem C9_reflect_threading_equiv_witness :
    List.sum [1, 2] = 3 ∧
    apply_reflect_conj_tri_single (fun x : Int => -x) 3 3 true [1, 2]
        (fun k => (k : Int)) =
      loopSeg (fun x : Int => -x) true 3 3 0 3 (fun k => (k : Int)) :=
  ⟨by decide,
    C9_reflect_threading_equiv (fun x : Int => -x) 3 3 true [1, 2]
      (fun k => (k : Int)) (by decide)⟩

lemma writeCount_earlyExitLoop_out (oracle : Nat → Int) (fuel i s : Nat)
    (h : s < i ∨ i + fuel ≤ s) :
    writeCount s (earlyExitLoop oracle fuel i) = 0 := by
  induction fuel generalizing i with
  | zero => rfl
  | succ fuel ih =>
    rw [earlyExitLoop, writeCount, writeCount, if_neg (by omega)]
    by_cases ho : oracle i = 0
    · rw [if_pos ho, ih (i + 1) (by omega)]
    · rw [if_neg ho]
      rfl

lemma writeCount_earlyExitLoop_reach (oracle : Nat → Int) (fuel i s : Nat)
    (hs1 : i ≤ s) (hs2 : s < i + fuel)
    (hok : ∀ j, i ≤ j → j < s → oracle j = 0) :
    writeCount s (earlyExitLoop oracle fuel i) = 1 := by
  induction fuel generalizing i with
  | zero => omega
  | succ fuel ih =>
    rw [earlyExitLoop, writeCount, writeCount]
    by_cases hi : i = s
    · rw [if_pos hi]
      have hrest : writeCount s
          (if oracle i = 0 then earlyExitLoop oracle fuel (i + 1) else []) = 0 := by
        by_cases ho : oracle i = 0
        · rw [if_pos ho, writeCount_earlyExitLoop_out oracle fuel (i + 1) s
            (Or.inl (by omega))]
        · rw [if_neg ho]
          rfl
      rw [hrest]
    · have hlt : i < s := by omega
      rw [if_neg hi, if_pos (hok i (Nat.le_refl i) hlt),
        ih (i + 1) (by omega) (by omega)
          (fun j hj1 hj2 => hok j (by omega) hj2)]

lemma writeCount_earlyExitLoop_cut (oracle : Nat → Int) (fuel i s t : Nat)
    (hit : i ≤ t) (hts : t < s) (hfail : oracle t ≠ 0)
    (hok : ∀ j, i ≤ j → j < t → oracle j = 0) :
    writeCount s (earlyExitLoop oracle fuel i) = 0 := by
  by_cases hf : t < i + fuel
  · rw [earlyExitLoop_fail oracle fuel i t hit hf hfail hok, writeCount_append,
      writeCount_seqLoop, if_neg (by omega), writeCount, writeCount,
      if_neg (by omega)]
    rfl
  · exact writeCount_earlyExitLoop_out oracle fuel i s (Or.inr (by omega))

lemma applyWrites_failShape (oracle inf0 : Nat → Int) (t j : Nat) :
    applyWrites (seqLoop oracle t 0 ++ [Ev.factor t, Ev.infoWrite t (oracle t)])
        inf0 j = if j ≤ t then oracle j else inf0 j := by
  rw [applyWrites_append]
  simp only [applyWrites]
  rw [applyWrites_seqLoop]
  by_cases h1 : j = t
  · rw [if_pos h1, if_pos (by omega), h1]
  · rw [if_neg h1]
    by_cases h2 : 0 ≤ j ∧ j < 0 + t
    · rw [if_pos h2, if_pos (by omega)]
    · rw [if_neg h2, if_neg (by omega)]

/-! ## Claims about the batched drivers -/

/-- Counterexample to claim C2 as stated: with batch size `0`, the
symmetric/Hermitian eigendecomposition kernel still issues its workspace
size-query call, because the query precedes the batch loop unconditionally;
the claim says no size-query call occurs. -/
theorem C2_batch0_counterexample :
    queryCount (apply_lapack_eigh 0 0 1 (fun _ => 0)).events ≠ 0 := by
  decide

/-- Claim C2 amended: with batch size `0`, the general eigendecomposition,
symmetric/Hermitian eigendecomposition and QR-reflector kernels make no
per-matrix factorization call (and geqrf does not abort when the query
succeeds), but each still issues exactly one workspace size-query call; only
the orthogonal-reconstruction kernel short-circuits with no query at all. -/
theorem C2_amended_batch0 (qi hint : Int) (oracle : Nat → Int) (n m nc : Nat)
    (dbg : Bool) :
    factorCalls (apply_linalg_eig 0 qi hint oracle).events = []
    ∧ queryCount (apply_linalg_eig 0 qi hint oracle).events = 1
    ∧ factorCalls (apply_lapack_eigh 0 qi hint oracle).events = []
    ∧ queryCount (apply_lapack_eigh 0 qi hint oracle).events = 1
    ∧ factorCalls (apply_geqrf dbg 0 n qi hint oracle).events = []
    ∧ queryCount (apply_geqrf dbg 0 n qi hint oracle).events = 1
    ∧ (qi = 0 → (apply_geqrf dbg 0 n qi hint oracle).aborted = false)
    ∧ (apply_orgqr dbg 0 m nc qi hint oracle).events = [] := by
  have hg : factorCalls (apply_geqrf dbg 0 n qi hint oracle).events = []
      ∧ queryCount (apply_geqrf dbg 0 n qi hint oracle).events = 1
      ∧ (qi = 0 → (apply_geqrf dbg 0 n qi hint oracle).aborted = false) := by
    by_cases h : dbg = true ∧ qi ≠ 0
    · rw [apply_geqrf, if_pos h]
      exact ⟨rfl, rfl, fun hq => absurd hq h.2⟩
    · rw [apply_geqrf, if_neg h]
      exact ⟨rfl, rfl, fun _ => rfl⟩
  have ho : (apply_orgqr dbg 0 m nc qi hint oracle).events = [] := by
    rw [apply_orgqr, if_pos (by simp)]
  exact ⟨rfl, rfl, rfl, rfl, hg.1, hg.2.1, hg.2.2, ho⟩

/-- Witness for the amended C2 at concrete inputs: with batch size `0` the
eigh kernel still issues exactly one query and geqrf does not abort when the
query succeeds. -/
theorem C2_amended_batch0_witness :
    queryCount (apply_lapack_eigh 0 0 1 (fun _ => 0)).events = 1
    ∧ (apply_geqrf false 0 2 0 1 (fun _ => 0)).aborted = false :=
  ⟨(C2_amended_batch0 0 1 (fun _ => 0) 2 1 1 false).2.2.2.1,
    (C2_amended_batch0 0 1 (fun _ => 0) 2 1 1 false).2.2.2.2.2.2.1 rfl⟩

/-- Counterexample to claim C3 as stated: for the QR-reflector kernel with
`n = 2` and size hint `1`, the allocated workspace is
`max(max(1, n), hint) = 2`, not `max(1, hint) = 1` as the claim requires for
every operation using the sizing protocol. -/
theorem C3_geqrf_lwork_counterexample :
    (apply_geqrf false 1 2 0 1 (fun _ => 0)).lwork ≠ some (max 1 1) := by
  decide

/-- Claim C3 amended: the primary workspace size equals
`max(1, floor(real_part(hint)))` for the general eigendecomposition, the
symmetric/Hermitian eigendecomposition and the orthogonal reconstruction,
but for the QR-reflector kernel it equals
`max(max(1, n), floor(real_part(hint)))`, the extra lower bound `n` guarding
against an MKL requirement. -/
theorem C3_amended_lwork (b n m nc : Nat) (qi hint : Int) (oracle : Nat → Int)
    (dbg : Bool) :
    (apply_linalg_eig b qi hint oracle).lwork = some (max 1 hint)
    ∧ (apply_lapack_eigh b qi hint oracle).lwork = some (max 1 hint)
    ∧ (qi = 0 → (apply_geqrf dbg b n qi hint oracle).lwork =
        some (max (max 1 (n : Int)) hint))
    ∧ (qi = 0 → b * m * nc ≠ 0 →
        (apply_orgqr dbg b m nc qi hint oracle).lwork = some (max 1 hint)) := by
  refine ⟨rfl, rfl, ?_, ?_⟩
  · intro hq
    rw [apply_geqrf, if_neg (fun hx => hx.2 hq)]
  · intro hq hne
    rw [apply_orgqr, if_neg hne, if_neg (fun hx => hx.2 hq)]

/-- Witness for the amended C3 at concrete inputs: both the geqrf formula
(with `n = 3`, hint `7`) and the orgqr formula (hint `7`). -/
theorem C3_amended_lwork_witness :
    (0 : Int) = 0 ∧ 1 * 1 * 1 ≠ 0 ∧
    (apply_geqrf false 1 3 0 7 (fun _ => 0)).lwork =
      some (max (max 1 (3 : Int)) 7) ∧
    (apply_orgqr false 1 1 1 0 7 (fun _ => 0)).lwork = some (max 1 7) :=
  ⟨rfl, by decide,
    (C3_amended_lwork 1 3 1 1 0 7 (fun _ => 0) false).2.2.1 rfl,
    (C3_amended_lwork 1 3 1 1 0 7 (fun _ => 0) false).2.2.2 rfl (by decide)⟩

/-- Claim C4: for the early-exit drivers (symmetric/Hermitian
eigendecomposition and triangular solve) over a batch of `b` matrices, if
`t` is the first index whose factorization reports nonzero status, then the
driver makes factorization calls exactly for indices `0 .. t`, status
entries `0 .. t` hold the reported values (zero before `t`, nonzero at `t`),
entries beyond `t` are left untouched by the driver, and when no matrix
fails exactly `b` entries are written by the driver; the eigh events consist
of the sizing query, its status write, and exactly this driver loop. -/
theorem C4_early_exit_status (b : Nat) (oracle : Nat → Int)
    (inf0 : Nat → Int) :
    (∀ t, t < b → oracle t ≠ 0 → (∀ j, j < t → oracle j = 0) →
      factorCalls (apply_triangular_solve b oracle).events = List.range (t + 1)
      ∧ (∀ j, j ≤ t →
          applyWrites (apply_triangular_solve b oracle).events inf0 j = oracle j)
      ∧ (∀ j, t < j →
          applyWrites (apply_triangular_solve b oracle).events inf0 j = inf0 j))
    ∧ ((∀ j, j < b → oracle j = 0) →
      factorCalls (apply_triangular_solve b oracle).events = List.range b
      ∧ (∀ j, j < b →
          applyWrites (apply_triangular_solve b oracle).events inf0 j = oracle j)
      ∧ (∀ j, b ≤ j →
          applyWrites (apply_triangular_solve b oracle).events inf0 j = inf0 j))
    ∧ (∀ qi hint, (apply_lapack_eigh b qi hint oracle).events =
        Ev.query :: Ev.infoWrite 0 qi :: (apply_triangular_solve b oracle).events) := by
  refine ⟨?_, ?_, fun qi hint => rfl⟩
  · intro t htb hfail hok
    have hloop : (apply_triangular_solve b oracle).events =
        seqLoop oracle t 0 ++ [Ev.factor t, Ev.infoWrite t (oracle t)] := by
      show earlyExitLoop oracle b 0 = _
      rw [earlyExitLoop_fail oracle b 0 t (Nat.zero_le t) (by omega) hfail
        (fun j _ hj2 => hok j hj2), Nat.sub_zero]
    refine ⟨?_, ?_, ?_⟩
    · rw [hloop, factorCalls_append, factorCalls_seqLoop, List.range_succ,
        List.range_eq_range']
      rfl
    · intro j hj
      rw [hloop, applyWrites_failShape, if_pos hj]
    · intro j hj
      rw [hloop, applyWrites_failShape, if_neg (by omega)]
  · intro hok
    have hloop : (apply_triangular_solve b oracle).events = seqLoop oracle b 0 := by
      show earlyExitLoop oracle b 0 = _
      exact earlyExitLoop_ok oracle b 0 (fun j _ hj2 => hok j (by omega))
    refine ⟨?_, ?_, ?_⟩
    · rw [hloop, factorCalls_seqLoop, List.range_eq_range']
    · intro j hj
      rw [hloop, applyWrites_seqLoop, if_pos (by omega)]
    · intro j hj
      rw [hloop, applyWrites_seqLoop, if_neg (by omega)]

/-- Witness for C4 at a concrete input: batch of `3`, matrix `1` is the
first to fail (`info = 3`); the driver calls indices `0` and `1` only and
leaves entry `2` of the status vector at its initial value `7`. -/
theorem C4_early_exit_status_witness :
    factorCalls (apply_triangular_solve 3
        (fun j => if j = 0 then (0 : Int) else 3)).events = List.range 2
    ∧ applyWrites (apply_triangular_solve 3
        (fun j => if j = 0 then (0 : Int) else 3)).events (fun _ => (7 : Int)) 2
      = 7 := by
  have h := (C4_early_exit_status 3 (fun j => if j = 0 then (0 : Int) else 3)
    (fun _ => (7 : Int))).1 1 (by decide) (by decide)
    (fun j hj => by
      have hj0 : j = 0 := by omega
      rw [hj0, if_pos rfl])
  exact ⟨h.1, h.2.2 2 (by decide)⟩

/-- Counterexample to claim C5 as stated: in the symmetric/Hermitian
eigendecomposition with batch size `1`, status slot `0` is not written
exactly once — it is written by the workspace sizing query and again by the
driver step for matrix `0`. -/
theorem C5_slot0_counterexample :
    writeCount 0 (apply_lapack_eigh 1 0 1 (fun _ => 0)).events ≠ 1 := by
  decide

/-- Claim C5 amended: in the status-recording eigendecomposition kernels,
every slot `i ≥ 1` that the driver reaches is written exactly once, by the
driver step for matrix `i`, and slots the driver does not reach are not
written; but slot `0` is also written by the workspace sizing query (which
is handed the `infos` pointer), so it is written twice whenever the batch is
nonempty, and once — by the query alone — when the batch is empty. -/
theorem C5_amended_status_writes (b : Nat) (qi hint : Int)
    (oracle : Nat → Int) :
    (1 ≤ b →
      writeCount 0 (apply_linalg_eig b qi hint oracle).events = 2)
    ∧ (∀ i, 1 ≤ i → i < b →
      writeCount i (apply_linalg_eig b qi hint oracle).events = 1)
    ∧ (∀ i, b ≤ i → 1 ≤ i →
      writeCount i (apply_linalg_eig b qi hint oracle).events = 0)
    ∧ (b = 0 →
      writeCount 0 (apply_linalg_eig b qi hint oracle).events = 1)
    ∧ (1 ≤ b →
      writeCount 0 (apply_lapack_eigh b qi hint oracle).events = 2)
    ∧ (∀ i, 1 ≤ i → i < b → (∀ j, j < i → oracle j = 0) →
      writeCount i (apply_lapack_eigh b qi hint oracle).events = 1)
    ∧ (∀ i t, t < i → i < b → oracle t ≠ 0 → (∀ j, j < t → oracle j = 0) →
      writeCount i (apply_lapack_eigh b qi hint oracle).events = 0)
    ∧ (b = 0 →
      writeCount 0 (apply_lapack_eigh b qi hint oracle).events = 1) := by
  have heig : ∀ s, writeCount s (apply_linalg_eig b qi hint oracle).events =
      (if 0 = s then 1 else 0) + writeCount s (seqLoop oracle b 0) :=
    fun s => rfl
  have heigh : ∀ s, writeCount s (apply_lapack_eigh b qi hint oracle).events =
      (if 0 = s then 1 else 0) + writeCount s (earlyExitLoop oracle b 0) :=
    fun s => rfl
  refine ⟨?_, ?_, ?_, ?_, ?_, ?_, ?_, ?_⟩
  · intro hb
    rw [heig 0, if_pos rfl, writeCount_seqLoop, if_pos (by omega)]
  · intro i h1 h2
    rw [heig i, if_neg (by omega), writeCount_seqLoop, if_pos (by omega)]
  · intro i h1 h2
    rw [heig i, if_neg (by omega), writeCount_seqLoop, if_neg (by omega)]
  · intro hb
    rw [heig 0, if_pos rfl, writeCount_seqLoop, if_neg (by omega)]
  · intro hb
    rw [heigh 0, if_pos rfl,
      writeCount_earlyExitLoop_reach oracle b 0 0 (Nat.le_refl 0) (by omega)
        (fun j hj1 hj2 => by omega)]
  · intro i h1 h2 hok
    rw [heigh i, if_neg (by omega),
      writeCount_earlyExitLoop_reach oracle b 0 i (Nat.zero_le i) (by omega)
        (fun j _ hj2 => hok j hj2)]
  · intro i t h1 h2 hfail hok
    rw [heigh i, if_neg (by omega),
      writeCount_earlyExitLoop_cut oracle b 0 i t (Nat.zero_le t) h1 hfail
        (fun j _ hj2 => hok j hj2)]
  · intro hb
    rw [heigh 0, if_pos rfl, hb, writeCount_earlyExitLoop_out oracle 0 0 0
      (Or.inr (Nat.le_refl 0))]

/-- Witness for the amended C5 at a concrete input: batch of `1`, slot `0`
is written twice in the eigh kernel. -/
theorem C5_amended_status_writes_witness :
    writeCount 0 (apply_lapack_eigh 1 0 1 (fun _ => (0 : Int))).events = 2 :=
  (C5_amended_status_writes 1 0 1 (fun _ => (0 : Int))).2.2.2.2.1 (by decide)

/-- Counterexample to claim C7 as stated: in the general eigendecomposition
with a nonzero status `5` on the workspace size-query call, the batched call
does not abort, and batch matrix `0` is still processed — the query failure
is not fatal and does not precede batch processing with a failure. -/
theorem C7_query_failure_counterexample :
    (apply_linalg_eig 1 5 1 (fun _ => 0)).aborted = false
    ∧ factorCalls (apply_linalg_eig 1 5 1 (fun _ => 0)).events = [0] := by
  decide

/-- Claim C7 amended: a nonzero status on the size-query call is fatal
before any matrix is processed only for geqrf and orgqr and only in debug
builds (a debug-only internal assertion); in release builds they proceed,
and the eigendecomposition kernels never abort — they record the query
status into status slot `0` and process every batch matrix regardless. -/
theorem C7_amended_query_failure (b n m nc : Nat) (qi hint : Int)
    (oracle : Nat → Int) (hqi : qi ≠ 0) (hnum : b * m * nc ≠ 0) :
    (apply_geqrf true b n qi hint oracle).aborted = true
    ∧ factorCalls (apply_geqrf true b n qi hint oracle).events = []
    ∧ (apply_orgqr true b m nc qi hint oracle).aborted = true
    ∧ factorCalls (apply_orgqr true b m nc qi hint oracle).events = []
    ∧ (apply_geqrf false b n qi hint oracle).aborted = false
    ∧ (apply_linalg_eig b qi hint oracle).aborted = false
    ∧ factorCalls (apply_linalg_eig b qi hint oracle).events = List.range b
    ∧ Ev.infoWrite 0 qi ∈ (apply_linalg_eig b qi hint oracle).events
    ∧ (apply_lapack_eigh b qi hint oracle).aborted = false
    ∧ Ev.infoWrite 0 qi ∈ (apply_lapack_eigh b qi hint oracle).events := by
  have hgt : apply_geqrf true b n qi hint oracle =
      { events := [Ev.query], lwork := none, aborted := true } := by
    rw [apply_geqrf, if_pos ⟨rfl, hqi⟩]
  have hot : apply_orgqr true b m nc qi hint oracle =
      { events := [Ev.query], lwork := none, aborted := true } := by
    rw [apply_orgqr, if_neg hnum, if_pos ⟨rfl, hqi⟩]
  have hgf : (apply_geqrf false b n qi hint oracle).aborted = false := by
    rw [apply_geqrf, if_neg (fun hx => Bool.noConfusion hx.1)]
    exact assertLoop_false_snd oracle b 0
  refine ⟨by rw [hgt], by rw [hgt]; rfl, by rw [hot], by rw [hot]; rfl, hgf,
    rfl, ?_, ?_, rfl, ?_⟩
  · show factorCalls (seqLoop oracle b 0) = List.range b
    rw [factorCalls_seqLoop, List.range_eq_range']
  · exact List.mem_cons_of_mem _ (List.mem_cons_self _ _)
  · exact List.mem_cons_of_mem _ (List.mem_cons_self _ _)

/-- Witness for the amended C7 at a concrete input: query status `3` in a
debug build aborts geqrf before any factorization call. -/
theorem C7_amended_query_failure_witness :
    (3 : Int) ≠ 0 ∧ 1 * 1 * 1 ≠ 0 ∧
    (apply_geqrf true 1 2 3 1 (fun _ => 0)).aborted = true :=
  ⟨by decide, by decide,
    (C7_amended_query_failure 1 2 1 1 3 1 (fun _ => 0) (by decide)
      (by decide)).1⟩

/-- Claim C8: when the orgqr input has zero elements (`numel = 0`), the
kernel returns immediately: no size query, no factorization call, no abort,
no workspace allocation, and every buffer is left unchanged. -/
theorem C8_orgqr_empty_short_circuit (dbg : Bool) (b m nc : Nat)
    (qi hint : Int) (oracle : Nat → Int) (h : b * m * nc = 0) :
    (apply_orgqr dbg b m nc qi hint oracle).events = []
    ∧ queryCount (apply_orgqr dbg b m nc qi hint oracle).events = 0
    ∧ factorCalls (apply_orgqr dbg b m nc qi hint oracle).events = []
    ∧ (apply_orgqr dbg b m nc qi hint oracle).aborted = false
    ∧ (apply_orgqr dbg b m nc qi hint oracle).lwork = none
    ∧ ∀ (eff : Ev → Buf Int → Buf Int) (g : Buf Int),
        applyEvents eff (apply_orgqr dbg b m nc qi hint oracle).events g = g := by
  have he : apply_orgqr dbg b m nc qi hint oracle =
      { events := [], lwork := none, aborted := false } := by
    rw [apply_orgqr, if_pos h]
  rw [he]
  exact ⟨rfl, rfl, rfl, rfl, rfl, fun eff g => rfl⟩

/-- Witness for C8 at a concrete input: a batch holding a single 0-by-0
matrix short-circuits with an empty trace. -/
theorem C8_orgqr_empty_short_circuit_witness :
    1 * 0 * 0 = 0 ∧ (apply_orgqr false 1 0 0 0 1 (fun _ => 0)).events = [] :=
  ⟨by decide,
    (C8_orgqr_empty_short_circuit false 1 0 0 0 1 (fun _ => 0) (by decide)).1⟩

/-- Claim C10: the Cholesky-based inverse driver processes every one of the
`b` batch matrices with no early exit, and applies the conjugate-triangle
mirroring pass to every matrix, whatever status codes the oracle reports —
in particular also to matrices whose recorded status is nonzero. -/
theorem C10_cholesky_inverse_full_batch (b : Nat) (oracle : Nat → Int) :
    factorCalls (apply_cholesky_inverse b oracle).events = List.range b
    ∧ reflectCalls (apply_cholesky_inverse b oracle).events = List.range b
    ∧ queryCount (apply_cholesky_inverse b oracle).events = 0
    ∧ (apply_cholesky_inverse b oracle).aborted = false := by
  refine ⟨?_, ?_, ?_, rfl⟩
  · show factorCalls (choleskyLoop oracle b 0) = List.range b
    rw [factorCalls_choleskyLoop, List.range_eq_range']
  · show reflectCalls (choleskyLoop oracle b 0) = List.range b
    rw [reflectCalls_choleskyLoop, List.range_eq_range']
  · exact queryCount_choleskyLoop oracle b 0

end BatchLinAlg
